import Mathlib

/-!
Verification of the lazy batched deduplicating cache
(`src/shared/lib/LazyMobXCache.ts`).

The embedding models JavaScript runtime values with a JSON-like type
`JVal`, cache entries (`CacheData`) as the record shapes the source
constructs, and the snapshot as a map from string keys to entries.
`updateCache` in the source calls seamless-immutable
`merge(toMerge, {deep: true})`, whose per-key behaviour is: when both the
current value and the incoming value are plain (non-null, non-array)
objects, merge them recursively, otherwise replace; keys absent from the
incoming object are retained.  That deep merge is embedded faithfully
(`jsMergeVal`, `mergeEntry`).  The mutable cache object / pending map of
the source become explicit state (`CState`), and the interleavings the
JavaScript event loop allows between the synchronous prefix of `populate`,
its post-`await` continuation, and `addData` calls are captured by a step
relation (`Step`) with reachability (`Reachable`).
-/

namespace LazyMobX

/-- JavaScript runtime values as they can occur for the cache's `Data` and
`Metadata` type parameters: null, booleans, numbers, strings and plain
objects (association lists of string keys, in property-insertion order). -/
inductive JVal where
  | jnull : JVal
  | jbool : Bool → JVal
  | jnum : Int → JVal
  | jstr : String → JVal
  | jobj : List (String × JVal) → JVal

/-- seamless-immutable `isMergableObject`: non-null, not an array, not a
Date — of the values representable here, exactly the plain objects. -/
def isMergable : JVal → Bool
  | .jobj _ => true
  | _ => false

/-- First value stored under key `k` in a JS-object association list. -/
def objLookup (l : List (String × α)) (k : String) : Option α :=
  (l.find? (fun p => p.1 = k)).map (fun p => p.2)

mutual

/-- Boolean equality on `JVal`, recursing through object fields. -/
def JVal.beq : JVal → JVal → Bool
  | .jnull, .jnull => true
  | .jbool a, .jbool b => a == b
  | .jnum a, .jnum b => a == b
  | .jstr a, .jstr b => a == b
  | .jobj fs, .jobj gs => JVal.beqL fs gs
  | _, _ => false

/-- Boolean equality on object field lists. -/
def JVal.beqL : List (String × JVal) → List (String × JVal) → Bool
  | [], [] => true
  | (k, v) :: fs, (l, w) :: gs => k == l && JVal.beq v w && JVal.beqL fs gs
  | _, _ => false

end

mutual

/-- `JVal.beq` decides propositional equality. -/
theorem JVal.beq_iff : (a b : JVal) → (JVal.beq a b = true ↔ a = b)
  | .jnull, .jnull => by simp [JVal.beq]
  | .jbool a, .jbool b => by simp [JVal.beq]
  | .jnum a, .jnum b => by simp [JVal.beq]
  | .jstr a, .jstr b => by simp [JVal.beq]
  | .jobj fs, .jobj gs => by
      simp only [JVal.beq, JVal.beqL_iff fs gs]
      constructor
      · intro h; rw [h]
      · intro h; injection h
  | .jnull, .jbool _ | .jnull, .jnum _ | .jnull, .jstr _ | .jnull, .jobj _
  | .jbool _, .jnull | .jbool _, .jnum _ | .jbool _, .jstr _ | .jbool _, .jobj _
  | .jnum _, .jnull | .jnum _, .jbool _ | .jnum _, .jstr _ | .jnum _, .jobj _
  | .jstr _, .jnull | .jstr _, .jbool _ | .jstr _, .jnum _ | .jstr _, .jobj _
  | .jobj _, .jnull | .jobj _, .jbool _ | .jobj _, .jnum _ | .jobj _, .jstr _ => by
      simp [JVal.beq]

/-- `JVal.beqL` decides propositional equality of field lists. -/
theorem JVal.beqL_iff : (fs gs : List (String × JVal)) → (JVal.beqL fs gs = true ↔ fs = gs)
  | [], [] => by simp [JVal.beqL]
  | [], _ :: _ => by simp [JVal.beqL]
  | _ :: _, [] => by simp [JVal.beqL]
  | (k, v) :: fs, (l, w) :: gs => by
      simp [JVal.beqL, JVal.beq_iff v w, JVal.beqL_iff fs gs, Prod.ext_iff]

end

instance : DecidableEq JVal := fun a b => decidable_of_iff _ (JVal.beq_iff a b)

mutual

/-- seamless-immutable `merge` with `{deep: true}` at the level of a single
value: two plain objects merge field by field, anything else is replaced
by the incoming value. -/
def jsMergeVal : JVal → JVal → JVal
  | .jobj fs, .jobj gs => .jobj (jsMergeFields fs gs ++ gs.filter (fun p => (objLookup fs p.1).isNone))
  | _, b => b

/-- Walk the current object's fields; a field also present in the incoming
object is (deep-)merged with the incoming value, a field absent from it is
kept. -/
def jsMergeFields : List (String × JVal) → List (String × JVal) → List (String × JVal)
  | [], _ => []
  | (k, v) :: rest, news =>
    (k, match objLookup news k with
        | some w => jsMergeVal v w
        | none => v) :: jsMergeFields rest news

end

/-- Entry status: the `status` field of the source's `CacheData` union. -/
inductive Status where
  | complete : Status
  | error : Status
deriving DecidableEq

/-- A cache entry as stored in the snapshot: the source's
`{status, data, meta?}` object shape.  `data := jnull` models
`data: null`; `meta := none` models the absence of the `meta` property. -/
structure CacheData where
  status : Status
  data : JVal
  meta : Option JVal
deriving DecidableEq

/-- seamless-immutable deep merge of an incoming entry object over an
existing entry object: `status` (a string) is replaced, `data` and `meta`
are merged value-wise, and a `meta` property missing from the incoming
entry is retained from the existing one. -/
def mergeEntry (old nw : CacheData) : CacheData where
  status := nw.status
  data := jsMergeVal old.data nw.data
  meta :=
    match old.meta, nw.meta with
    | some mo, some mn => some (jsMergeVal mo mn)
    | none, mn => mn
    | some mo, none => some mo

/-- The entry stored under a key after merging incoming entry `e`:
deep merge when the key was already present, `e` itself otherwise. -/
def appliedEntry (old : Option CacheData) (e : CacheData) : CacheData :=
  match old with
  | some o => mergeEntry o e
  | none => e

/-- JS object property assignment `l[k] = v`: overwrite the existing
property in place, or append a new one. -/
def objSet (l : List (String × α)) (k : String) (v : α) : List (String × α) :=
  match l with
  | [] => [(k, v)]
  | p :: rest => if p.1 = k then (k, v) :: rest else p :: objSet rest k v

/-- The snapshot: the source's `_cache` object, as a total lookup. -/
def CacheMap : Type := String → Option CacheData

/-- Merge a single `(key, entry)` pair of `toMerge` into the snapshot. -/
def applyOne (c : CacheMap) (k : String) (e : CacheData) : CacheMap :=
  fun k' => if k' = k then some (appliedEntry (c k) e) else c k'

/-- Merge every pair of `toMerge`, left to right. -/
def applyMerges (c : CacheMap) (toMerge : List (String × CacheData)) : CacheMap :=
  toMerge.foldl (fun acc p => applyOne acc p.1 p.2) c

/-- `updateCache`: no-op for an empty `toMerge` (the source skips the
snapshot replacement entirely to avoid a spurious observer notification),
otherwise `this._cache.merge(toMerge, {deep: true})`. -/
def updateCache (c : CacheMap) (toMerge : List (String × CacheData)) : CacheMap :=
  if toMerge.isEmpty then c else applyMerges c toMerge

example :
    jsMergeVal (.jobj [("a", .jnum 1), ("b", .jnum 2)]) (.jobj [("b", .jnum 7), ("c", .jnum 9)])
      = .jobj [("a", .jnum 1), ("b", .jnum 7), ("c", .jnum 9)] := by decide

example : jsMergeVal (.jobj [("a", .jnum 1)]) .jnull = .jnull := by decide

/-- The caller-supplied key codec bound at cache construction:
`queryToKey` and `dataToKey` (the latter taking the optional metadata). -/
structure Ctx where
  queryToKey : JVal → String
  dataToKey : JVal → Option JVal → String

/-- The `toMerge` object built by `addData(data, meta)`: each datum is
stored under `dataToKey(datum, meta)` as `{status: "complete", data: datum}`
— the source stores no `meta` property in the entry. -/
def addDataMerge (ctx : Ctx) (data : List JVal) (meta : Option JVal) :
    List (String × CacheData) :=
  data.foldl (fun m d => objSet m (ctx.dataToKey d meta) ⟨.complete, d, none⟩) []

/-- The entry `markError` stores for every key of a failed batch. -/
def errorEntry : CacheData := ⟨.error, .jnull, none⟩

/-- The `toMerge` object built by `markError(queries)`:
`{status: "error", data: null}` under every query's key. -/
def markErrorMerge (ctx : Ctx) (queries : List JVal) : List (String × CacheData) :=
  queries.foldl (fun m q => objSet m (ctx.queryToKey q) errorEntry) []

/-- One element of a fetch result: either a flat datum, or an augmented
group (an object carrying a `meta` property next to its `data` array). -/
inductive ResElt where
  | flat : JVal → ResElt
  | aug : List JVal → JVal → ResElt
deriving DecidableEq

/-- `isAugmentedData`: `data.hasOwnProperty("meta")` — true exactly for
augmented groups. -/
def isAugmentedData : ResElt → Bool
  | .aug _ _ => true
  | .flat _ => false

/-- One iteration of `putData`'s first loop: stage the entries of one
result element into `(toMerge, keyHasData)`. An augmented group stages
`{status: "complete", data: datum, meta}` for each datum under
`dataToKey(datum, meta)`; a flat datum stages
`{status: "complete", data: datum}` under `dataToKey(datum)`. -/
def stageElt (ctx : Ctx) (st : List (String × CacheData) × List String) :
    ResElt → List (String × CacheData) × List String
  | .flat d => (objSet st.1 (ctx.dataToKey d none) ⟨.complete, d, none⟩,
      st.2 ++ [ctx.dataToKey d none])
  | .aug ds meta => ds.foldl
      (fun st2 d => (objSet st2.1 (ctx.dataToKey d (some meta)) ⟨.complete, d, some meta⟩,
        st2.2 ++ [ctx.dataToKey d (some meta)])) st

/-- The keys recorded in `putData`'s `keyHasData` object after the first
loop over the fetch result. -/
def stagedKeys (ctx : Ctx) (data : List ResElt) : List String :=
  (data.foldl (stageElt ctx) ([], [])).2

/-- The marker entry `putData` stages for a queried key with no data:
`{status: "complete", data: null}`. -/
def nullMarker : CacheData := ⟨.complete, .jnull, none⟩

/-- The `toMerge` object built by `putData(queries, data)`: first stage
every result element's entries, then stage `nullMarker` for every query
key not in `keyHasData`. -/
def putDataMerge (ctx : Ctx) (queries : List JVal) (data : List ResElt) :
    List (String × CacheData) :=
  (queries.foldl
    (fun m q =>
      if (stagedKeys ctx data).contains (ctx.queryToKey q) then m
      else objSet m (ctx.queryToKey q) nullMarker)
    (data.foldl (stageElt ctx) ([], [])).1)

/-- The cache's mutable state: the snapshot (`_cache`), the pending map,
the `missing` lists of started but unsettled `populate` calls, and a log
of the argument lists passed to the fetch collaborator. -/
structure CState where
  cache : CacheMap
  pending : String → Bool
  inflight : List (List JVal)
  fetchLog : List (List JVal)

/-- `peek(query)`: read the snapshot at the query's key; `none` models the
source's `null` for an unset key. -/
def peek (ctx : Ctx) (s : CState) (q : JVal) : Option CacheData :=
  s.cache (ctx.queryToKey q)

/-- `getMissing(queries)`: the queries whose key is truthy in neither the
snapshot nor the pending map. -/
def getMissing (ctx : Ctx) (s : CState) (queries : List JVal) : List JVal :=
  queries.filter (fun q =>
    (s.cache (ctx.queryToKey q)).isNone && !(s.pending (ctx.queryToKey q)))

/-- `markPending` / `unmarkPending`: write `v` into the pending map at
every query's key. -/
def setPending (ctx : Ctx) (p : String → Bool) (queries : List JVal) (v : Bool) :
    String → Bool :=
  queries.foldl (fun acc q => fun k => if k = ctx.queryToKey q then v else acc k) p

/-- `addData(data, meta)` as a state transformer: merge the complete
entries synchronously; no fetch, pending or in-flight bookkeeping. -/
def addData (ctx : Ctx) (s : CState) (data : List JVal) (meta : Option JVal) : CState :=
  { s with cache := updateCache s.cache (addDataMerge ctx data meta) }

/-- The synchronous prefix of `populate(queries)` (up to the `await`):
compute `missing`; if empty return unchanged, otherwise mark each missing
key pending, record the batch as in flight and invoke the fetch
collaborator with it (logged in `fetchLog`). -/
def populateStart (ctx : Ctx) (s : CState) (queries : List JVal) : CState :=
  let missing := getMissing ctx s queries
  if missing.isEmpty then s
  else
    { s with
      pending := setPending ctx s.pending missing true
      inflight := s.inflight ++ [missing]
      fetchLog := s.fetchLog ++ [missing] }

/-- The continuation of `populate` when the fetch for the `i`-th in-flight
batch resolves: `putData(missing, result)` then, in the `finally` block,
`unmarkPending(missing)`. -/
def populateFinishOk (ctx : Ctx) (s : CState) (i : Nat) (result : List ResElt) : CState :=
  let missing := s.inflight.getD i []
  { s with
    cache := updateCache s.cache (putDataMerge ctx missing result)
    pending := setPending ctx s.pending missing false
    inflight := s.inflight.eraseIdx i }

/-- The continuation of `populate` when the fetch for the `i`-th in-flight
batch rejects: the `catch` block runs `markError(missing)` and then the
`finally` block runs `unmarkPending(missing)`; the rejection is absorbed
(`populate` resolves with `false`). -/
def populateFinishErr (ctx : Ctx) (s : CState) (i : Nat) : CState :=
  let missing := s.inflight.getD i []
  { s with
    cache := updateCache s.cache (markErrorMerge ctx missing)
    pending := setPending ctx s.pending missing false
    inflight := s.inflight.eraseIdx i }

/-- Atomic transitions of the cache, as the JavaScript event loop can
interleave them: an `addData` call, the synchronous prefix of a
`populate` call, and the resolution or rejection continuation of an
in-flight fetch. -/
inductive Step (ctx : Ctx) : CState → CState → Prop where
  | addData (s : CState) (data : List JVal) (meta : Option JVal) :
      Step ctx s (addData ctx s data meta)
  | popStart (s : CState) (queries : List JVal) :
      Step ctx s (populateStart ctx s queries)
  | finishOk (s : CState) (i : Nat) (h : i < s.inflight.length) (result : List ResElt) :
      Step ctx s (populateFinishOk ctx s i result)
  | finishErr (s : CState) (i : Nat) (h : i < s.inflight.length) :
      Step ctx s (populateFinishErr ctx s i)

/-- The state set up by `init()`: empty snapshot, empty pending map. -/
def initState : CState :=
  ⟨fun _ => none, fun _ => false, [], []⟩

/-- States the cache can reach from construction. -/
def Reachable (ctx : Ctx) (s : CState) : Prop :=
  Relation.ReflTransGen (Step ctx) initState s

/-- The debouncer accumulator after the `get` calls of one window: the
constructor's reducer `queryMap[this.queryToKey(newQuery)] = newQuery`
applied to the empty object produced by the `initAccumulator` factory. -/
def windowAccum (ctx : Ctx) (calls : List JVal) : List (String × JVal) :=
  calls.foldl (fun m q => objSet m (ctx.queryToKey q) q) []

/-- Modelled from the spec: the debouncer machinery itself
(`src/shared/lib/accumulatingDebounce.ts`) is not in the source tree; per
the spec it invokes the flush consumer exactly once per window with the
final accumulated value. `windowFlush` is the batch that single flush
passes to `populate`: `Object.keys(queryMap).map(k => queryMap[k])`, the
accumulator's values in key-insertion order. -/
def windowFlush (ctx : Ctx) (calls : List JVal) : List JVal :=
  (windowAccum ctx calls).map (fun p => p.2)

/-! ### Association-list and fold lemmas -/

theorem jsMergeVal_jnull (a : JVal) : jsMergeVal a .jnull = .jnull := by
  cases a <;> rfl

theorem objLookup_nil (k : String) : objLookup ([] : List (String × α)) k = none := rfl

theorem objLookup_cons (p : String × α) (l : List (String × α)) (k : String) :
    objLookup (p :: l) k = if p.1 = k then some p.2 else objLookup l k := by
  by_cases h : p.1 = k <;> simp [objLookup, List.find?_cons, h]

theorem objLookup_append (l1 l2 : List (String × α)) (k : String) :
    objLookup (l1 ++ l2) k = (objLookup l1 k).or (objLookup l2 k) := by
  simp only [objLookup, List.find?_append]
  cases l1.find? (fun p => p.1 = k) <;> simp

theorem objLookup_objSet (l : List (String × α)) (k : String) (v : α) (k' : String) :
    objLookup (objSet l k v) k' = if k' = k then some v else objLookup l k' := by
  induction l with
  | nil =>
    rw [objSet, objLookup_cons, objLookup_nil]
    by_cases h : k' = k
    · subst h; simp
    · rw [if_neg (fun e : k = k' => h e.symm), if_neg h]
  | cons p rest ih =>
    rw [objSet]
    by_cases hp : p.1 = k
    · rw [if_pos hp, objLookup_cons, objLookup_cons]
      by_cases h : k' = k
      · subst h; rw [if_pos rfl, if_pos rfl]
      · rw [if_neg (fun e : k = k' => h e.symm), if_neg h,
          if_neg (fun e : p.1 = k' => h ((hp.symm.trans e).symm))]
    · rw [if_neg hp, objLookup_cons, objLookup_cons, ih]
      by_cases h : k' = k
      · rw [if_pos h, if_pos h, if_neg (fun e : p.1 = k' => hp (e.trans h))]
      · rw [if_neg h, if_neg h]

/-- Looking up a left fold of JS property assignments: the value of the
last assignment to `k`, or the initial object's value when no assignment
touched `k`. -/
theorem objLookup_foldl_objSet (assigns : List (String × α)) (m : List (String × α))
    (k : String) :
    objLookup (assigns.foldl (fun acc p => objSet acc p.1 p.2) m) k
      = (objLookup assigns.reverse k).or (objLookup m k) := by
  induction assigns generalizing m with
  | nil => simp [objLookup_nil, Option.or]
  | cons p rest ih =>
    rw [List.foldl_cons, ih, List.reverse_cons, objLookup_append, objLookup_objSet,
      objLookup_cons, objLookup_nil]
    by_cases h : k = p.1
    · rw [if_pos h.symm, if_pos h]
      cases objLookup rest.reverse k <;> simp [Option.or]
    · rw [if_neg (fun e : p.1 = k => h e.symm), if_neg h]
      cases objLookup rest.reverse k <;> simp [Option.or]

theorem objLookup_eq_none (l : List (String × α)) (k : String)
    (h : ∀ p ∈ l, p.1 ≠ k) : objLookup l k = none := by
  induction l with
  | nil => rfl
  | cons p rest ih =>
    rw [objLookup_cons, if_neg (h p (List.mem_cons_self p rest))]
    exact ih (fun q hq => h q (List.mem_cons_of_mem p hq))

theorem objLookup_mem (l : List (String × α)) (k : String) (v : α)
    (h : objLookup l k = some v) : (k, v) ∈ l := by
  induction l with
  | nil => simp [objLookup_nil] at h
  | cons p rest ih =>
    rw [objLookup_cons] at h
    by_cases hp : p.1 = k
    · rw [if_pos hp] at h
      injection h with h2
      exact List.mem_cons.mpr (Or.inl (by rw [← hp, ← h2]))
    · rw [if_neg hp] at h
      exact List.mem_cons_of_mem p (ih h)

theorem objLookup_isSome_of_mem (l : List (String × α)) (k : String) (v : α)
    (h : (k, v) ∈ l) : (objLookup l k).isSome := by
  induction l with
  | nil => simp at h
  | cons p rest ih =>
    rw [objLookup_cons]
    rcases List.mem_cons.mp h with h1 | h2
    · rw [← h1]; simp
    · by_cases hp : p.1 = k
      · rw [if_pos hp]; rfl
      · rw [if_neg hp]; exact ih h2

/-- Every pair of `objSet l k v` is the new pair or a pair of `l`. -/
theorem mem_objSet (l : List (String × α)) (k : String) (v : α) (p : String × α)
    (h : p ∈ objSet l k v) : p = (k, v) ∨ p ∈ l := by
  induction l with
  | nil => simp [objSet] at h; exact Or.inl h
  | cons q rest ih =>
    rw [objSet] at h
    by_cases hq : q.1 = k
    · rw [if_pos hq] at h
      rcases List.mem_cons.mp h with h1 | h2
      · exact Or.inl h1
      · exact Or.inr (List.mem_cons_of_mem q h2)
    · rw [if_neg hq] at h
      rcases List.mem_cons.mp h with h1 | h2
      · exact Or.inr (List.mem_cons.mpr (Or.inl h1))
      · rcases ih h2 with h3 | h4
        · exact Or.inl h3
        · exact Or.inr (List.mem_cons_of_mem q h4)

theorem objSet_keys (l : List (String × α)) (k : String) (v : α) :
    (objSet l k v).map Prod.fst
      = if k ∈ l.map Prod.fst then l.map Prod.fst else l.map Prod.fst ++ [k] := by
  induction l with
  | nil => simp [objSet]
  | cons p rest ih =>
    rw [objSet]
    by_cases hp : p.1 = k
    · rw [if_pos hp]
      simp [hp]
    · rw [if_neg hp]
      simp only [List.map_cons, List.mem_cons, ih]
      by_cases h : k ∈ rest.map Prod.fst
      · rw [if_pos h, if_pos (Or.inr h)]
      · rw [if_neg h, if_neg ?_, List.cons_append]
        rintro (h1 | h2)
        · exact hp h1.symm
        · exact h h2

theorem objSet_keys_nodup (l : List (String × α)) (k : String) (v : α)
    (h : (l.map Prod.fst).Nodup) : ((objSet l k v).map Prod.fst).Nodup := by
  rw [objSet_keys]
  by_cases hk : k ∈ l.map Prod.fst
  · rwa [if_pos hk]
  · rw [if_neg hk]
    exact h.append (List.nodup_singleton k) (fun a ha hb => hk ((List.mem_singleton.mp hb) ▸ ha))

theorem foldl_objSet_keys_nodup (assigns : List (String × α)) (m : List (String × α))
    (h : (m.map Prod.fst).Nodup) :
    ((assigns.foldl (fun acc p => objSet acc p.1 p.2) m).map Prod.fst).Nodup := by
  induction assigns generalizing m with
  | nil => exact h
  | cons p rest ih => exact ih _ (objSet_keys_nodup _ _ _ h)

theorem objLookup_of_mem_nodup (l : List (String × α)) (k : String) (v : α)
    (hn : (l.map Prod.fst).Nodup) (h : (k, v) ∈ l) : objLookup l k = some v := by
  induction l with
  | nil => simp at h
  | cons p rest ih =>
    rw [objLookup_cons]
    rcases List.mem_cons.mp h with h1 | h2
    · rw [← h1]; simp
    · have hk : k ∈ rest.map Prod.fst :=
        List.mem_map.mpr ⟨(k, v), h2, rfl⟩
      have hp : p.1 ≠ k := by
        intro e
        exact (List.nodup_cons.mp (by simpa using hn)).1 (e ▸ hk)
      rw [if_neg hp]
      exact ih (List.nodup_cons.mp (by simpa using hn)).2 h2


/-! ### Characterizing the state operations -/

/-- `applyMerges` leaves keys alone that `toMerge` does not mention. -/
theorem applyMerges_not_mem (c : CacheMap) (tm : List (String × CacheData)) (k : String)
    (h : ∀ p ∈ tm, p.1 ≠ k) : applyMerges c tm k = c k := by
  induction tm generalizing c with
  | nil => rfl
  | cons p rest ih =>
    rw [applyMerges, List.foldl_cons]
    rw [show List.foldl (fun acc p => applyOne acc p.1 p.2) (applyOne c p.1 p.2) rest
        = applyMerges (applyOne c p.1 p.2) rest from rfl]
    rw [ih _ (fun q hq => h q (List.mem_cons_of_mem p hq))]
    rw [applyOne, if_neg (fun e : k = p.1 => h p (List.mem_cons_self p rest) e.symm)]

/-- When `toMerge` has no duplicate keys, `applyMerges` per key: the
supplied entry deep-merged onto whatever the snapshot held. -/
theorem applyMerges_lookup (c : CacheMap) (tm : List (String × CacheData)) (k : String)
    (hn : (tm.map Prod.fst).Nodup) :
    applyMerges c tm k
      = match objLookup tm k with
        | some e => some (appliedEntry (c k) e)
        | none => c k := by
  induction tm generalizing c with
  | nil => rfl
  | cons p rest ih =>
    have hn2 : (rest.map Prod.fst).Nodup := (List.nodup_cons.mp (by simpa using hn)).2
    have hp1 : p.1 ∉ rest.map Prod.fst := (List.nodup_cons.mp (by simpa using hn)).1
    rw [applyMerges, List.foldl_cons]
    rw [show List.foldl (fun acc q => applyOne acc q.1 q.2) (applyOne c p.1 p.2) rest
        = applyMerges (applyOne c p.1 p.2) rest from rfl]
    rw [ih _ hn2, objLookup_cons]
    by_cases h : p.1 = k
    · rw [if_pos h]
      have : objLookup rest k = none :=
        objLookup_eq_none rest k (fun q hq e => hp1 (h ▸ e ▸ List.mem_map.mpr ⟨q, hq, rfl⟩))
      rw [this]
      rw [applyOne, if_pos h.symm, h]
    · rw [if_neg h]
      have hck : applyOne c p.1 p.2 k = c k := by
        rw [applyOne, if_neg (fun e : k = p.1 => h e.symm)]
      cases hr : objLookup rest k <;> rw [hck]

/-- `updateCache` agrees with `applyMerges` (the empty guard changes
nothing at the level of values). -/
theorem updateCache_eq_applyMerges (c : CacheMap) (tm : List (String × CacheData)) :
    updateCache c tm = applyMerges c tm := by
  rw [updateCache]
  cases tm with
  | nil => rfl
  | cons p rest => rfl

/-- The pending map after `markPending`/`unmarkPending`: `v` at every key
of the query list, unchanged elsewhere. -/
theorem setPending_eq (ctx : Ctx) (p : String → Bool) (qs : List JVal) (v : Bool)
    (k : String) :
    setPending ctx p qs v k
      = if qs.any (fun q => ctx.queryToKey q = k) then v else p k := by
  induction qs generalizing p with
  | nil => simp [setPending]
  | cons q rest ih =>
    rw [setPending, List.foldl_cons]
    rw [show List.foldl (fun acc q k => if k = ctx.queryToKey q then v else acc k)
        ((fun k => if k = ctx.queryToKey q then v else p k)) rest
        = setPending ctx (fun k => if k = ctx.queryToKey q then v else p k) rest v from rfl]
    rw [ih]
    by_cases hr : rest.any (fun q => ctx.queryToKey q = k)
    · rw [if_pos hr, if_pos (by simp_all)]
    · rw [if_neg hr]
      by_cases hq : ctx.queryToKey q = k
      · rw [if_pos hq.symm, if_pos (by simp [hq])]
      · rw [if_neg (fun e : k = ctx.queryToKey q => hq e.symm),
          if_neg (by simp_all)]

/-- `addDataMerge` as a fold of explicit property assignments. -/
theorem addDataMerge_eq (ctx : Ctx) (data : List JVal) (meta : Option JVal) :
    addDataMerge ctx data meta
      = ((data.map (fun d => (ctx.dataToKey d meta, (⟨.complete, d, none⟩ : CacheData)))).foldl
          (fun acc p => objSet acc p.1 p.2) []) := by
  rw [addDataMerge, List.foldl_map]

/-- `markErrorMerge` as a fold of explicit property assignments. -/
theorem markErrorMerge_eq (ctx : Ctx) (queries : List JVal) :
    markErrorMerge ctx queries
      = ((queries.map (fun q => (ctx.queryToKey q, errorEntry))).foldl
          (fun acc p => objSet acc p.1 p.2) []) := by
  rw [markErrorMerge, List.foldl_map]

/-- `windowAccum` as a fold of explicit property assignments. -/
theorem windowAccum_eq (ctx : Ctx) (calls : List JVal) :
    windowAccum ctx calls
      = ((calls.map (fun q => (ctx.queryToKey q, q))).foldl
          (fun acc p => objSet acc p.1 p.2) []) := by
  rw [windowAccum, List.foldl_map]

/-- The `(key, entry)` pairs one result element stages in `putData`'s
first loop, in iteration order. -/
def eltPairs (ctx : Ctx) : ResElt → List (String × CacheData)
  | .flat d => [(ctx.dataToKey d none, ⟨.complete, d, none⟩)]
  | .aug ds meta => ds.map (fun d => (ctx.dataToKey d (some meta), ⟨.complete, d, some meta⟩))

/-- All pairs staged by `putData`'s first loop, in iteration order. -/
def stagedList (ctx : Ctx) (data : List ResElt) : List (String × CacheData) :=
  (data.map (eltPairs ctx)).flatten

theorem foldl_pairs (ds : List JVal) (key : JVal → String) (ent : JVal → CacheData)
    (m : List (String × CacheData)) (ks : List String) :
    ds.foldl (fun st2 d => (objSet st2.1 (key d) (ent d), st2.2 ++ [key d])) (m, ks)
      = ((ds.map (fun d => (key d, ent d))).foldl (fun acc p => objSet acc p.1 p.2) m,
          ks ++ ds.map key) := by
  induction ds generalizing m ks with
  | nil => simp
  | cons d rest ih =>
    rw [List.foldl_cons, ih, List.map_cons, List.foldl_cons, List.map_cons]
    simp [List.append_assoc]

/-- `putData`'s first loop, reformulated as one flat fold of assignments:
the staged object and the `keyHasData` key list. -/
theorem stage_fold_eq (ctx : Ctx) (data : List ResElt)
    (m : List (String × CacheData)) (ks : List String) :
    data.foldl (stageElt ctx) (m, ks)
      = ((stagedList ctx data).foldl (fun acc p => objSet acc p.1 p.2) m,
          ks ++ (stagedList ctx data).map Prod.fst) := by
  induction data generalizing m ks with
  | nil => simp [stagedList]
  | cons e rest ih =>
    rw [List.foldl_cons]
    have he : stageElt ctx (m, ks) e
        = ((eltPairs ctx e).foldl (fun acc p => objSet acc p.1 p.2) m,
            ks ++ (eltPairs ctx e).map Prod.fst) := by
      cases e with
      | flat d => simp [stageElt, eltPairs]
      | aug ds meta =>
        rw [stageElt, eltPairs, foldl_pairs]
        simp [List.map_map, Function.comp]
    rw [he, ih]
    simp [stagedList, List.foldl_append, List.append_assoc]

/-- The keys of `keyHasData` are the keys of the staged pairs. -/
theorem stagedKeys_eq (ctx : Ctx) (data : List ResElt) :
    stagedKeys ctx data = (stagedList ctx data).map Prod.fst := by
  rw [stagedKeys, stage_fold_eq]
  simp

theorem foldl_cond_assign (qs : List JVal) (cond : JVal → Bool) (key : JVal → String)
    (ent : CacheData) (m : List (String × CacheData)) :
    qs.foldl (fun m q => if cond q then m else objSet m (key q) ent) m
      = ((qs.filter (fun q => !cond q)).map (fun q => (key q, ent))).foldl
          (fun acc p => objSet acc p.1 p.2) m := by
  induction qs generalizing m with
  | nil => rfl
  | cons q rest ih =>
    rw [List.foldl_cons, List.filter_cons]
    by_cases h : cond q
    · rw [if_pos h, ih]
      simp [h]
    · rw [if_neg h, ih]
      simp [h]

/-- `putDataMerge` as one flat fold: first all staged data pairs, then a
`nullMarker` assignment for every query key not in `keyHasData`. -/
theorem putDataMerge_eq (ctx : Ctx) (queries : List JVal) (data : List ResElt) :
    putDataMerge ctx queries data
      = ((queries.filter
            (fun q => !((stagedKeys ctx data).contains (ctx.queryToKey q)))).map
          (fun q => (ctx.queryToKey q, nullMarker))).foldl (fun acc p => objSet acc p.1 p.2)
          ((stagedList ctx data).foldl (fun acc p => objSet acc p.1 p.2) []) := by
  rw [putDataMerge, stage_fold_eq, foldl_cond_assign]

/-- Membership in a fold of property assignments comes from the initial
object or from one of the assignments. -/
theorem mem_foldl_objSet (assigns : List (String × α)) (m : List (String × α))
    (p : String × α) (h : p ∈ assigns.foldl (fun acc q => objSet acc q.1 q.2) m) :
    p ∈ m ∨ p ∈ assigns := by
  induction assigns generalizing m with
  | nil => exact Or.inl h
  | cons a rest ih =>
    rw [List.foldl_cons] at h
    rcases ih _ h with h1 | h2
    · rcases mem_objSet _ _ _ _ h1 with h3 | h4
      · exact Or.inr (List.mem_cons.mpr (Or.inl h3))
      · exact Or.inl h4
    · exact Or.inr (List.mem_cons_of_mem a h2)

/-- Every builder's `toMerge` has duplicate-free keys: they are all folds
of property assignments starting from the empty object. -/
theorem foldl_objSet_nil_keys_nodup (assigns : List (String × α)) :
    (((assigns.foldl (fun acc q => objSet acc q.1 q.2) []).map Prod.fst)).Nodup :=
  foldl_objSet_keys_nodup assigns [] (by simp)

theorem addDataMerge_keys_nodup (ctx : Ctx) (data : List JVal) (meta : Option JVal) :
    ((addDataMerge ctx data meta).map Prod.fst).Nodup := by
  rw [addDataMerge_eq]; exact foldl_objSet_nil_keys_nodup _

theorem markErrorMerge_keys_nodup (ctx : Ctx) (queries : List JVal) :
    ((markErrorMerge ctx queries).map Prod.fst).Nodup := by
  rw [markErrorMerge_eq]; exact foldl_objSet_nil_keys_nodup _

theorem putDataMerge_keys_nodup (ctx : Ctx) (queries : List JVal) (data : List ResElt) :
    ((putDataMerge ctx queries data).map Prod.fst).Nodup := by
  rw [putDataMerge_eq]
  exact foldl_objSet_keys_nodup _ _ (foldl_objSet_nil_keys_nodup _)

theorem windowAccum_keys_nodup (ctx : Ctx) (calls : List JVal) :
    ((windowAccum ctx calls).map Prod.fst).Nodup := by
  rw [windowAccum_eq]; exact foldl_objSet_nil_keys_nodup _

/-- Every entry staged by `putData`'s first loop has status `complete`. -/
theorem mem_stagedList_complete (ctx : Ctx) (data : List ResElt) (p : String × CacheData)
    (h : p ∈ stagedList ctx data) : p.2.status = .complete := by
  rw [stagedList] at h
  rcases List.mem_flatten.mp h with ⟨l, hl, hp⟩
  rcases List.mem_map.mp hl with ⟨e, _, rfl⟩
  cases e with
  | flat d =>
    rw [eltPairs] at hp
    rcases List.mem_singleton.mp hp with rfl
    rfl
  | aug ds meta =>
    rw [eltPairs] at hp
    rcases List.mem_map.mp hp with ⟨d, _, rfl⟩
    rfl

/-- Every entry of the `toMerge` built by `addData` has status `complete`. -/
theorem mem_addDataMerge_complete (ctx : Ctx) (data : List JVal) (meta : Option JVal)
    (p : String × CacheData) (h : p ∈ addDataMerge ctx data meta) :
    p.2.status = .complete := by
  rw [addDataMerge_eq] at h
  rcases mem_foldl_objSet _ _ _ h with h1 | h2
  · simp at h1
  · rcases List.mem_map.mp h2 with ⟨d, _, rfl⟩
    rfl

/-- Every entry of the `toMerge` built by `markError` is `errorEntry`. -/
theorem mem_markErrorMerge_eq (ctx : Ctx) (queries : List JVal)
    (p : String × CacheData) (h : p ∈ markErrorMerge ctx queries) :
    p.2 = errorEntry := by
  rw [markErrorMerge_eq] at h
  rcases mem_foldl_objSet _ _ _ h with h1 | h2
  · simp at h1
  · rcases List.mem_map.mp h2 with ⟨q, _, rfl⟩
    rfl

/-- Every entry of the `toMerge` built by `putData` has status `complete`. -/
theorem mem_putDataMerge_complete (ctx : Ctx) (queries : List JVal) (data : List ResElt)
    (p : String × CacheData) (h : p ∈ putDataMerge ctx queries data) :
    p.2.status = .complete := by
  rw [putDataMerge_eq] at h
  rcases mem_foldl_objSet _ _ _ h with h1 | h2
  · rcases mem_foldl_objSet _ _ _ h1 with h3 | h4
    · simp at h3
    · exact mem_stagedList_complete ctx data p h4
  · rcases List.mem_map.mp h2 with ⟨q, _, rfl⟩
    rfl

theorem appliedEntry_status (old : Option CacheData) (e : CacheData) :
    (appliedEntry old e).status = e.status := by
  cases old <;> rfl

theorem appliedEntry_data_jnull (old : Option CacheData) (e : CacheData)
    (h : e.data = .jnull) : (appliedEntry old e).data = .jnull := by
  cases old with
  | none => exact h
  | some o =>
    show (mergeEntry o e).data = .jnull
    rw [mergeEntry]
    rw [show (⟨e.status, jsMergeVal o.data e.data, _⟩ : CacheData).data
        = jsMergeVal o.data e.data from rfl]
    rw [h, jsMergeVal_jnull]

/-- The snapshot invariant behind the `Error` variant: an entry with
status `error` stores `data: null`. -/
def errInv (c : CacheMap) : Prop :=
  ∀ k e, c k = some e → e.status = .error → e.data = .jnull

theorem errInv_applyMerges (c : CacheMap) (tm : List (String × CacheData))
    (htm : ∀ p ∈ tm, p.2.status = .error → p.2.data = .jnull)
    (hc : errInv c) : errInv (applyMerges c tm) := by
  induction tm generalizing c with
  | nil => exact hc
  | cons p rest ih =>
    rw [applyMerges, List.foldl_cons]
    rw [show List.foldl (fun acc q => applyOne acc q.1 q.2) (applyOne c p.1 p.2) rest
        = applyMerges (applyOne c p.1 p.2) rest from rfl]
    refine ih _ (fun q hq => htm q (List.mem_cons_of_mem p hq)) ?_
    intro k e he herr
    rw [applyOne] at he
    by_cases hk : k = p.1
    · rw [if_pos hk] at he
      injection he with he2
      rw [← he2] at herr ⊢
      rw [appliedEntry_status] at herr
      exact appliedEntry_data_jnull _ _ (htm p (List.mem_cons_self p rest) herr)
    · rw [if_neg hk] at he
      exact hc k e he herr

theorem errInv_updateCache (c : CacheMap) (tm : List (String × CacheData))
    (htm : ∀ p ∈ tm, p.2.status = .error → p.2.data = .jnull)
    (hc : errInv c) : errInv (updateCache c tm) := by
  rw [updateCache_eq_applyMerges]
  exact errInv_applyMerges c tm htm hc

/-- Every atomic transition preserves the error-data invariant. -/
theorem errInv_step (ctx : Ctx) (s s' : CState) (h : Step ctx s s')
    (hc : errInv s.cache) : errInv s'.cache := by
  cases h with
  | addData data meta =>
    exact errInv_updateCache _ _
      (fun p hp he => absurd (mem_addDataMerge_complete ctx data meta p hp)
        (by rw [he]; exact fun e => Status.noConfusion e)) hc
  | popStart queries =>
    rw [populateStart]
    by_cases hm : (getMissing ctx s queries).isEmpty
    · rw [if_pos hm]; exact hc
    · rw [if_neg hm]; exact hc
  | finishOk i hi result =>
    exact errInv_updateCache _ _
      (fun p hp he => absurd (mem_putDataMerge_complete ctx _ result p hp)
        (by rw [he]; exact fun e => Status.noConfusion e)) hc
  | finishErr i hi =>
    exact errInv_updateCache _ _
      (fun p hp _ => by rw [mem_markErrorMerge_eq ctx _ p hp]; rfl) hc

theorem objLookup_const_values (l : List (String × α)) (c : α) (k : String)
    (hall : ∀ p ∈ l, p.2 = c) (hsome : (objLookup l k).isSome) :
    objLookup l k = some c := by
  cases h : objLookup l k with
  | none => rw [h] at hsome; simp at hsome
  | some v => rw [show v = c from hall (k, v) (objLookup_mem l k v h)]

theorem objLookup_foldl_objSet_nodup (assigns : List (String × α)) (k : String) (v : α)
    (hn : (assigns.map Prod.fst).Nodup) (hm : (k, v) ∈ assigns) :
    objLookup (assigns.foldl (fun acc p => objSet acc p.1 p.2) []) k = some v := by
  rw [objLookup_foldl_objSet]
  have hrev : objLookup assigns.reverse k = some v := by
    refine objLookup_of_mem_nodup _ _ _ ?_ (List.mem_reverse.mpr hm)
    rw [List.map_reverse]
    exact List.nodup_reverse.mpr hn
  rw [hrev]
  rfl

theorem objLookup_map_pairing (l : List β) (key : β → String) (k : String) :
    objLookup (l.map (fun c => (key c, c))) k = l.find? (fun c => key c = k) := by
  induction l with
  | nil => rfl
  | cons c rest ih =>
    rw [List.map_cons, objLookup_cons, List.find?_cons]
    by_cases h : key c = k
    · rw [if_pos h]
      simp [h]
    · rw [if_neg h, ih]
      simp [h]

/-- Looking up the `toMerge` of `putData` at a staged key (duplicate-free
staging): the staged entry, untouched by the confirmed-absent loop. -/
theorem putDataMerge_lookup_staged (ctx : Ctx) (queries : List JVal)
    (result : List ResElt) (k : String) (e : CacheData)
    (hn : (stagedKeys ctx result).Nodup) (hm : (k, e) ∈ stagedList ctx result) :
    objLookup (putDataMerge ctx queries result) k = some e := by
  rw [putDataMerge_eq, objLookup_foldl_objSet]
  have hk : k ∈ stagedKeys ctx result := by
    rw [stagedKeys_eq]
    exact List.mem_map.mpr ⟨(k, e), hm, rfl⟩
  have hnone : objLookup
      (((queries.filter
          (fun q => !((stagedKeys ctx result).contains (ctx.queryToKey q)))).map
        (fun q => (ctx.queryToKey q, nullMarker))).reverse) k = none := by
    refine objLookup_eq_none _ _ ?_
    intro p hp he
    rcases List.mem_map.mp (List.mem_reverse.mp hp) with ⟨q, hq, rfl⟩
    have := (List.mem_filter.mp hq).2
    rw [Bool.not_eq_eq_eq_not, Bool.not_true] at this
    rw [← he] at hk
    have hc : (stagedKeys ctx result).contains (ctx.queryToKey q) = true :=
      List.elem_eq_true_of_mem hk
    rw [this] at hc
    exact Bool.noConfusion hc
  rw [hnone]
  have hn2 : ((stagedList ctx result).map Prod.fst).Nodup := by
    rw [← stagedKeys_eq]; exact hn
  rw [objLookup_foldl_objSet_nodup _ _ _ hn2 hm]
  rfl

/-- Looking up the `toMerge` of `putData` at a query key not present in
`keyHasData`: the confirmed-absent marker. -/
theorem putDataMerge_lookup_unmatched (ctx : Ctx) (queries : List JVal)
    (result : List ResElt) (q : JVal) (hq : q ∈ queries)
    (hk : ctx.queryToKey q ∉ stagedKeys ctx result) :
    objLookup (putDataMerge ctx queries result) (ctx.queryToKey q) = some nullMarker := by
  rw [putDataMerge_eq, objLookup_foldl_objSet]
  have hmem : (ctx.queryToKey q, nullMarker)
      ∈ ((queries.filter
          (fun q => !((stagedKeys ctx result).contains (ctx.queryToKey q)))).map
        (fun q => (ctx.queryToKey q, nullMarker))) := by
    refine List.mem_map.mpr ⟨q, List.mem_filter.mpr ⟨hq, ?_⟩, rfl⟩
    simp only [Bool.not_eq_eq_eq_not, Bool.not_true]
    exact (Bool.not_eq_true _).mp (fun hc => hk (List.mem_of_elem_eq_true hc))
  have hsome := objLookup_isSome_of_mem _ _ _ (List.mem_reverse.mpr hmem)
  have hconst : objLookup
      (((queries.filter
          (fun q => !((stagedKeys ctx result).contains (ctx.queryToKey q)))).map
        (fun q => (ctx.queryToKey q, nullMarker))).reverse) (ctx.queryToKey q)
      = some nullMarker := by
    refine objLookup_const_values _ _ _ ?_ hsome
    intro p hp
    rcases List.mem_map.mp (List.mem_reverse.mp hp) with ⟨c, _, rfl⟩
    rfl
  rw [hconst]
  rfl

/-- Looking up the `toMerge` of `markError` at a batch key: the error
entry. -/
theorem markErrorMerge_lookup (ctx : Ctx) (queries : List JVal) (q : JVal)
    (hq : q ∈ queries) :
    objLookup (markErrorMerge ctx queries) (ctx.queryToKey q) = some errorEntry := by
  rw [markErrorMerge_eq, objLookup_foldl_objSet]
  have hmem : (ctx.queryToKey q, errorEntry)
      ∈ (queries.map (fun c => (ctx.queryToKey c, errorEntry))) :=
    List.mem_map.mpr ⟨q, hq, rfl⟩
  have hsome := objLookup_isSome_of_mem _ _ _ (List.mem_reverse.mpr hmem)
  have hconst : objLookup
      ((queries.map (fun c => (ctx.queryToKey c, errorEntry))).reverse) (ctx.queryToKey q)
      = some errorEntry := by
    refine objLookup_const_values _ _ _ ?_ hsome
    intro p hp
    rcases List.mem_map.mp (List.mem_reverse.mp hp) with ⟨c, _, rfl⟩
    rfl
  rw [hconst]
  rfl

/-- The snapshot after `updateCache`, per key, for a duplicate-free
`toMerge`. -/
theorem updateCache_lookup (c : CacheMap) (tm : List (String × CacheData)) (k : String)
    (hn : (tm.map Prod.fst).Nodup) :
    updateCache c tm k
      = match objLookup tm k with
        | some e => some (appliedEntry (c k) e)
        | none => c k := by
  rw [updateCache_eq_applyMerges]
  exact applyMerges_lookup c tm k hn

/-- The snapshot after a failed batch, at a key of the batch. -/
theorem populateFinishErr_cache (ctx : Ctx) (s : CState) (i : Nat) (q : JVal)
    (hq : q ∈ s.inflight.getD i []) :
    (populateFinishErr ctx s i).cache (ctx.queryToKey q)
      = some (appliedEntry (s.cache (ctx.queryToKey q)) errorEntry) := by
  show updateCache s.cache (markErrorMerge ctx (s.inflight.getD i [])) (ctx.queryToKey q)
      = some (appliedEntry (s.cache (ctx.queryToKey q)) errorEntry)
  rw [updateCache_lookup _ _ _ (markErrorMerge_keys_nodup ctx _),
    markErrorMerge_lookup ctx _ q hq]

/-- The pending map after a failed batch, at a key of the batch. -/
theorem populateFinishErr_pending (ctx : Ctx) (s : CState) (i : Nat) (q : JVal)
    (hq : q ∈ s.inflight.getD i []) :
    (populateFinishErr ctx s i).pending (ctx.queryToKey q) = false := by
  show setPending ctx s.pending (s.inflight.getD i []) false (ctx.queryToKey q) = false
  rw [setPending_eq,
    if_pos (List.any_eq_true.mpr ⟨q, hq, by simp⟩)]

/-- The snapshot after a successful batch, per key. -/
theorem populateFinishOk_cache (ctx : Ctx) (s : CState) (i : Nat) (result : List ResElt)
    (k : String) :
    (populateFinishOk ctx s i result).cache k
      = match objLookup (putDataMerge ctx (s.inflight.getD i []) result) k with
        | some e => some (appliedEntry (s.cache k) e)
        | none => s.cache k := by
  show updateCache s.cache (putDataMerge ctx (s.inflight.getD i []) result) k = _
  exact updateCache_lookup _ _ _ (putDataMerge_keys_nodup ctx _ result)

/-- The pending map after a successful batch, at a key of the batch. -/
theorem populateFinishOk_pending (ctx : Ctx) (s : CState) (i : Nat) (result : List ResElt)
    (q : JVal) (hq : q ∈ s.inflight.getD i []) :
    (populateFinishOk ctx s i result).pending (ctx.queryToKey q) = false := by
  show setPending ctx s.pending (s.inflight.getD i []) false (ctx.queryToKey q) = false
  rw [setPending_eq,
    if_pos (List.any_eq_true.mpr ⟨q, hq, by simp⟩)]

/-! ### A concrete key codec and concrete traces -/

/-- A simple concrete key function: strings key themselves. -/
def toKeyJ : JVal → String
  | .jstr s => s
  | _ => "?"

/-- A concrete codec: `queryToKey` and `dataToKey` both key by the value
itself (`dataToKey` ignoring the metadata, as codecs may). -/
def ctx0 : Ctx := ⟨toKeyJ, fun d _ => toKeyJ d⟩

/-- Trace state: `populate(["a"])` has started; its fetch is in flight. -/
def sA : CState := populateStart ctx0 initState [.jstr "a"]

/-- Trace state: `populate(["b"])` has also started. -/
def sB : CState := populateStart ctx0 sA [.jstr "b"]

/-- Trace state: batch `["b"]`'s fetch resolved with an augmented group
whose datum keys to `"a"` — unrequested data cached under `"a"` with
metadata `"M"`, and `"b"` marked confirmed-absent. -/
def sC : CState := populateFinishOk ctx0 sB 1 [.aug [.jstr "a"] (.jstr "M")]

/-- Trace state: batch `["a"]`'s fetch then rejected; `markError` merges an
error entry over the complete entry now sitting at `"a"`. -/
def sD : CState := populateFinishErr ctx0 sC 0

theorem reach_sA : Reachable ctx0 sA :=
  Relation.ReflTransGen.tail Relation.ReflTransGen.refl
    (Step.popStart initState [.jstr "a"])

theorem reach_sD : Reachable ctx0 sD :=
  Relation.ReflTransGen.tail
    (Relation.ReflTransGen.tail
      (Relation.ReflTransGen.tail reach_sA (Step.popStart sA [.jstr "b"]))
      (Step.finishOk sB 1 (by decide) [.aug [.jstr "a"] (.jstr "M")]))
    (Step.finishErr sC 0 (by decide))

/-- Trace state: while batch `["a"]` is in flight, `addData` writes a
complete entry at `"a"`. -/
def tB : CState := addData ctx0 sA [.jstr "a"] none

/-- Trace state: batch `["a"]`'s fetch then rejects; `markError`
overwrites the complete entry `addData` just wrote. -/
def tC : CState := populateFinishErr ctx0 tB 0

theorem reach_tC : Reachable ctx0 tC :=
  Relation.ReflTransGen.tail
    (Relation.ReflTransGen.tail reach_sA (Step.addData sA [.jstr "a"] none))
    (Step.finishErr tB 0 (by decide))

/-- Trace state: `addData` has cached key `"a"`; no fetch has ever run. -/
def wA : CState := addData ctx0 initState [.jstr "a"] none

theorem reach_wA : Reachable ctx0 wA :=
  Relation.ReflTransGen.tail Relation.ReflTransGen.refl
    (Step.addData initState [.jstr "a"] none)

/-! ### Claims -/

/-- Claim C1, counterexample: because `updateCache` merges with
`{deep: true}`, a supplied entry does NOT replace the previous entry
wholesale — here the old entry's `meta` property survives a merge whose
supplied entry has no `meta`, so the key is not mapped to exactly the
supplied entry. -/
theorem c1_counterexample :
    ([("k", (⟨.complete, .jnum 2, none⟩ : CacheData))] ≠ []) ∧
    updateCache
      (updateCache (fun _ => none) [("k", ⟨.complete, .jnum 1, some (.jstr "M")⟩)])
      [("k", ⟨.complete, .jnum 2, none⟩)] "k"
      = some ⟨.complete, .jnum 2, some (.jstr "M")⟩ ∧
    some (⟨.complete, .jnum 2, some (.jstr "M")⟩ : CacheData)
      ≠ some (⟨.complete, .jnum 2, none⟩ : CacheData) :=
  ⟨by decide, by decide, by decide⟩

/-- Claim C1 (amended): for every non-empty duplicate-free mapping passed
to `updateCache`, each supplied key maps to the seamless-immutable deep
merge of its previous entry with the supplied entry (exactly the supplied
entry when the key was previously unset; fields absent from the supplied
entry, such as `meta`, are retained from the old entry), and every key not
in the mapping keeps the entry it had before. -/
theorem c1_updateCache_merge (c : CacheMap) (tm : List (String × CacheData))
    (hne : tm ≠ []) (hn : (tm.map Prod.fst).Nodup) :
    (∀ p ∈ tm, updateCache c tm p.1 = some (appliedEntry (c p.1) p.2)) ∧
    (∀ k, (∀ p ∈ tm, p.1 ≠ k) → updateCache c tm k = c k) := by
  refine ⟨fun p hp => ?_, fun k hk => ?_⟩
  · rw [updateCache_lookup c tm p.1 hn, objLookup_of_mem_nodup tm p.1 p.2 hn hp]
  · rw [updateCache_lookup c tm k hn, objLookup_eq_none tm k hk]

/-- Witness for C1's amended theorem at a concrete mapping. -/
theorem c1_witness :
    updateCache (fun _ => none) [("k", nullMarker)] "k" = some nullMarker ∧
    updateCache (fun _ => none) [("k", nullMarker)] "z" = none :=
  ⟨(c1_updateCache_merge (fun _ => none) [("k", nullMarker)] (by decide)
      (by decide)).1 ("k", nullMarker) (List.mem_singleton.mpr rfl),
    (c1_updateCache_merge (fun _ => none) [("k", nullMarker)] (by decide)
      (by decide)).2 "z" (by decide)⟩

/-- Claim C2, counterexample: a reachable snapshot (unrequested augmented
data cached under `"a"` by another batch's merge, then batch `["a"]`
fails) holds an error entry that carries metadata, because the deep merge
retains the `meta` property of the overwritten complete entry. -/
theorem c2_counterexample :
    Reachable ctx0 sD ∧
    sD.cache "a" = some ⟨.error, .jnull, some (.jstr "M")⟩ ∧
    (⟨.error, .jnull, some (.jstr "M")⟩ : CacheData).meta ≠ none :=
  ⟨reach_sD, by decide, by decide⟩

/-- Claim C2 (amended): in every reachable snapshot, every entry whose
status is `error` has null data; it need not be metadata-free, since the
deep merge retains metadata from a previously stored entry at the key. -/
theorem c2_error_data_null (ctx : Ctx) (s : CState) (h : Reachable ctx s) :
    errInv s.cache := by
  induction h with
  | refl => intro k e he _; exact Option.noConfusion he
  | tail hr hstep ih => exact errInv_step ctx _ _ hstep ih

/-- Witness for C2's amended theorem at a concrete reachable state. -/
theorem c2_witness :
    (⟨Status.error, JVal.jnull, some (JVal.jstr "M")⟩ : CacheData).data = JVal.jnull :=
  c2_error_data_null ctx0 sD reach_sD "a"
    ⟨.error, .jnull, some (.jstr "M")⟩ (by decide) (by decide)

/-- Claim C3, counterexample: a complete entry written by `addData` while
the batch's fetch is in flight IS overwritten by the error entry when the
fetch fails — `markError` merges over every key of `missing`
unconditionally. -/
theorem c3_counterexample :
    Reachable ctx0 tC ∧
    tB.cache "a" = some ⟨.complete, .jstr "a", none⟩ ∧
    tC = populateFinishErr ctx0 tB 0 ∧
    tC.cache "a" = some ⟨.error, .jnull, none⟩ :=
  ⟨reach_tC, by decide, rfl, by decide⟩

/-- Claim C3 (amended): a key holding any entry (or pending) when the
batch is filtered is excluded from `missing`, and every key the failed
batch's `markError` merge touches is the key of some query in `missing` —
so entries complete at filter time never receive that batch's error entry;
but an entry written after filtering (e.g. by `addData` while the fetch is
in flight) is overwritten, as the counterexample shows. -/
theorem c3_missing_excludes_present (ctx : Ctx) (s : CState) (queries : List JVal) :
    (∀ q ∈ getMissing ctx s queries,
        s.cache (ctx.queryToKey q) = none ∧ s.pending (ctx.queryToKey q) = false) ∧
    (∀ k, (objLookup (markErrorMerge ctx (getMissing ctx s queries)) k).isSome →
        ∃ q ∈ getMissing ctx s queries, ctx.queryToKey q = k) := by
  constructor
  · intro q hq
    have h2 := (List.mem_filter.mp hq).2
    simp only [Bool.and_eq_true, Option.isNone_iff_eq_none, Bool.not_eq_true'] at h2
    exact h2
  · intro k hk
    cases hsome : objLookup (markErrorMerge ctx (getMissing ctx s queries)) k with
    | none => rw [hsome] at hk; simp at hk
    | some e =>
      have hmem := objLookup_mem _ _ _ hsome
      rw [markErrorMerge_eq] at hmem
      rcases mem_foldl_objSet _ _ _ hmem with h1 | h2
      · simp at h1
      · rcases List.mem_map.mp h2 with ⟨q, hq, heq⟩
        exact ⟨q, hq, congrArg Prod.fst heq⟩

/-- Witness for C3's amended theorem at a concrete state. -/
theorem c3_witness :
    initState.cache (ctx0.queryToKey (.jstr "a")) = none ∧
    initState.pending (ctx0.queryToKey (.jstr "a")) = false :=
  (c3_missing_excludes_present ctx0 initState [.jstr "a"]).1 (.jstr "a") (by decide)

/-- Claim C4, counterexample: `addData([d], M)` uses `M` only to compute
the key; the entry it stores has no `meta` property, so `peek` returns a
complete entry that does NOT carry the metadata `M`. -/
theorem c4_counterexample :
    ctx0.queryToKey (.jnum 5) = ctx0.dataToKey (.jnum 5) (some (.jstr "M")) ∧
    peek ctx0 (addData ctx0 initState [.jnum 5] (some (.jstr "M"))) (.jnum 5)
      = some ⟨.complete, .jnum 5, none⟩ ∧
    some (⟨.complete, .jnum 5, none⟩ : CacheData)
      ≠ some (⟨.complete, .jnum 5, some (.jstr "M")⟩ : CacheData) :=
  ⟨rfl, by decide, by decide⟩

/-- Claim C4 (amended): after `addData([d], M)`, any query whose key
equals `dataToKey(d, M)` peeks the deep merge of the key's previous entry
(if any) with `{status: "complete", data: d}` — the entry `addData`
supplies never carries the metadata `M`, which is used only to compute the
key, so metadata can appear in the peeked entry only by retention from a
previously stored entry; when the key was previously unset the peek is
exactly a complete entry carrying the datum `d` and no metadata.
`addData` leaves the fetch log, the pending map and the in-flight batches
untouched (it never invokes the fetch collaborator). -/
theorem c4_addData_bypass (ctx : Ctx) (s : CState) (d : JVal) (M : JVal) (q : JVal)
    (hkey : ctx.queryToKey q = ctx.dataToKey d (some M)) :
    peek ctx (addData ctx s [d] (some M)) q
      = some (appliedEntry (s.cache (ctx.dataToKey d (some M))) ⟨.complete, d, none⟩) ∧
    (s.cache (ctx.dataToKey d (some M)) = none →
      peek ctx (addData ctx s [d] (some M)) q = some ⟨.complete, d, none⟩) ∧
    (addData ctx s [d] (some M)).fetchLog = s.fetchLog ∧
    (addData ctx s [d] (some M)).pending = s.pending ∧
    (addData ctx s [d] (some M)).inflight = s.inflight := by
  have hcore : peek ctx (addData ctx s [d] (some M)) q
      = some (appliedEntry (s.cache (ctx.dataToKey d (some M))) ⟨.complete, d, none⟩) := by
    show applyOne s.cache (ctx.dataToKey d (some M)) ⟨.complete, d, none⟩ (ctx.queryToKey q)
        = some (appliedEntry (s.cache (ctx.dataToKey d (some M))) ⟨.complete, d, none⟩)
    simp only [applyOne]
    rw [hkey, if_pos rfl]
  refine ⟨hcore, fun hfresh => ?_, rfl, rfl, rfl⟩
  rw [hcore, hfresh]
  rfl

/-- Witness for C4's amended theorem at a concrete datum and metadata. -/
theorem c4_witness :
    peek ctx0 (addData ctx0 initState [.jnum 5] (some (.jstr "Z"))) (.jnum 5)
      = some ⟨.complete, .jnum 5, none⟩ ∧
    (addData ctx0 initState [.jnum 5] (some (.jstr "Z"))).fetchLog = initState.fetchLog ∧
    (addData ctx0 initState [.jnum 5] (some (.jstr "Z"))).pending = initState.pending ∧
    (addData ctx0 initState [.jnum 5] (some (.jstr "Z"))).inflight = initState.inflight :=
  ⟨(c4_addData_bypass ctx0 initState (.jnum 5) (.jstr "Z") (.jnum 5) rfl).2.1 rfl,
    (c4_addData_bypass ctx0 initState (.jnum 5) (.jstr "Z") (.jnum 5) rfl).2.2.1,
    (c4_addData_bypass ctx0 initState (.jnum 5) (.jstr "Z") (.jnum 5) rfl).2.2.2.1,
    (c4_addData_bypass ctx0 initState (.jnum 5) (.jstr "Z") (.jnum 5) rfl).2.2.2.2⟩

/-- Claim C5: when the fetch for an in-flight batch rejects, every key of
the batch maps to an error entry with null data afterwards, and no key of
the batch is pending any longer.  (The rejection itself is absorbed by the
`catch` block: `populateFinishErr` is the total continuation `populate`'s
promise resolves through.) -/
theorem c5_failure_marks_batch (ctx : Ctx) (s : CState) (i : Nat)
    (hi : i < s.inflight.length) (q : JVal) (hq : q ∈ s.inflight.getD i []) :
    (∃ e, (populateFinishErr ctx s i).cache (ctx.queryToKey q) = some e ∧
        e.status = .error ∧ e.data = .jnull) ∧
    (populateFinishErr ctx s i).pending (ctx.queryToKey q) = false :=
  ⟨⟨appliedEntry (s.cache (ctx.queryToKey q)) errorEntry,
      populateFinishErr_cache ctx s i q hq, appliedEntry_status _ _,
      appliedEntry_data_jnull _ _ rfl⟩,
    populateFinishErr_pending ctx s i q hq⟩

/-- Witness for C5 at a concrete failed batch. -/
theorem c5_witness :
    (∃ e, (populateFinishErr ctx0 sA 0).cache (ctx0.queryToKey (.jstr "a")) = some e ∧
        e.status = .error ∧ e.data = .jnull) ∧
    (populateFinishErr ctx0 sA 0).pending (ctx0.queryToKey (.jstr "a")) = false :=
  c5_failure_marks_batch ctx0 sA 0 (by decide) (.jstr "a") (by decide)

/-- Claim C6: after a successful merge, every query of the batch whose key
received no staged entry from the returned data maps to a complete entry
with null data — present in the snapshot (unlike a never-queried key) and
with status `complete` (unlike an error entry). -/
theorem c6_confirmed_absent (ctx : Ctx) (s : CState) (i : Nat)
    (hi : i < s.inflight.length) (result : List ResElt) (q : JVal)
    (hq : q ∈ s.inflight.getD i []) (hk : ctx.queryToKey q ∉ stagedKeys ctx result) :
    ∃ e, (populateFinishOk ctx s i result).cache (ctx.queryToKey q) = some e ∧
        e.status = .complete ∧ e.data = .jnull := by
  refine ⟨appliedEntry (s.cache (ctx.queryToKey q)) nullMarker, ?_,
    appliedEntry_status _ _, appliedEntry_data_jnull _ _ rfl⟩
  rw [populateFinishOk_cache,
    putDataMerge_lookup_unmatched ctx (s.inflight.getD i []) result q hq hk]

/-- Witness for C6 at a concrete batch with an empty fetch result. -/
theorem c6_witness :
    ∃ e, (populateFinishOk ctx0 sA 0 []).cache (ctx0.queryToKey (.jstr "a")) = some e ∧
        e.status = .complete ∧ e.data = .jnull :=
  c6_confirmed_absent ctx0 sA 0 (by decide) [] (.jstr "a") (by decide) (by decide)

/-- Claim C7: the merge classifies each result element by whether it
carries a `meta` field (`isAugmentedData`); each datum of an augmented
group is staged as a complete entry carrying that datum and the group's
metadata under `dataToKey(datum, meta)`, and a flat element is staged as a
complete entry with no metadata under `dataToKey(element)` (stated for
duplicate-free staged keys, as required of the key codec). -/
theorem c7_element_classification (ctx : Ctx) (result : List ResElt)
    (hn : (stagedKeys ctx result).Nodup) :
    (∀ e ∈ result, isAugmentedData e = true ↔ ∃ ds M, e = ResElt.aug ds M) ∧
    (∀ ds M, ResElt.aug ds M ∈ result → ∀ d ∈ ds, ∀ queries,
        objLookup (putDataMerge ctx queries result) (ctx.dataToKey d (some M))
          = some ⟨.complete, d, some M⟩) ∧
    (∀ d, ResElt.flat d ∈ result → ∀ queries,
        objLookup (putDataMerge ctx queries result) (ctx.dataToKey d none)
          = some ⟨.complete, d, none⟩) := by
  refine ⟨fun e he => ?_, fun ds M hmem d hd queries => ?_, fun d hmem queries => ?_⟩
  · cases e with
    | flat d => simp [isAugmentedData]
    | aug ds M => simp [isAugmentedData]
  · refine putDataMerge_lookup_staged ctx queries result _ _ hn ?_
    rw [stagedList]
    refine List.mem_flatten.mpr ⟨eltPairs ctx (ResElt.aug ds M),
      List.mem_map.mpr ⟨ResElt.aug ds M, hmem, rfl⟩, ?_⟩
    rw [eltPairs]
    exact List.mem_map.mpr ⟨d, hd, rfl⟩
  · refine putDataMerge_lookup_staged ctx queries result _ _ hn ?_
    rw [stagedList]
    refine List.mem_flatten.mpr ⟨eltPairs ctx (ResElt.flat d),
      List.mem_map.mpr ⟨ResElt.flat d, hmem, rfl⟩, ?_⟩
    rw [eltPairs]
    exact List.mem_singleton.mpr rfl

/-- Witness for C7 at a concrete mixed fetch result. -/
theorem c7_witness :
    objLookup (putDataMerge ctx0 [] [.aug [.jstr "a"] (.jstr "M"), .flat (.jstr "b")])
        (ctx0.dataToKey (.jstr "a") (some (.jstr "M")))
      = some ⟨.complete, .jstr "a", some (.jstr "M")⟩ :=
  (c7_element_classification ctx0 [.aug [.jstr "a"] (.jstr "M"), .flat (.jstr "b")]
      (by decide)).2.1 [.jstr "a"] (.jstr "M") (by decide) (.jstr "a") (by decide) []

/-- Claim C8: `getMissing` returns exactly the subsequence of queries
whose key is set in neither the snapshot nor the pending map; any present
entry — in particular an error entry — excludes its key, so errored keys
are never refetched automatically. -/
theorem c8_getMissing_filter (ctx : Ctx) (s : CState) (queries : List JVal) :
    (getMissing ctx s queries).Sublist queries ∧
    (∀ q, q ∈ getMissing ctx s queries ↔
        q ∈ queries ∧ s.cache (ctx.queryToKey q) = none ∧
          s.pending (ctx.queryToKey q) = false) ∧
    (∀ q e, s.cache (ctx.queryToKey q) = some e → e.status = .error →
        q ∉ getMissing ctx s queries) := by
  have hmem : ∀ q, q ∈ getMissing ctx s queries ↔
      q ∈ queries ∧ s.cache (ctx.queryToKey q) = none ∧
        s.pending (ctx.queryToKey q) = false := by
    intro q
    constructor
    · intro h
      refine ⟨(List.mem_filter.mp h).1, ?_⟩
      have h2 := (List.mem_filter.mp h).2
      simp only [Bool.and_eq_true, Option.isNone_iff_eq_none, Bool.not_eq_true'] at h2
      exact h2
    · rintro ⟨h1, h2, h3⟩
      refine List.mem_filter.mpr ⟨h1, ?_⟩
      simp [h2, h3]
  refine ⟨List.filter_sublist _, hmem, fun q e hce _ hin => ?_⟩
  have h2 := ((hmem q).mp hin).2.1
  rw [hce] at h2
  exact Option.noConfusion h2

/-- Witness for C8 at a concrete state holding an error entry. -/
theorem c8_witness :
    (JVal.jstr "a") ∉ getMissing ctx0 sD [.jstr "a"] :=
  (c8_getMissing_filter ctx0 sD [.jstr "a"]).2.2 (.jstr "a")
    ⟨.error, .jnull, some (.jstr "M")⟩ (by decide) (by decide)

/-- Every property of the debouncer accumulator pairs its query's key with
the query itself. -/
theorem windowAccum_fst (ctx : Ctx) (calls : List JVal) (p : String × JVal)
    (hp : p ∈ windowAccum ctx calls) : p.1 = ctx.queryToKey p.2 := by
  rw [windowAccum_eq] at hp
  rcases mem_foldl_objSet _ _ _ hp with h1 | h2
  · simp at h1
  · rcases List.mem_map.mp h2 with ⟨q, _, rfl⟩
    rfl

/-- Claim C9, counterexample: a window whose only query key is already
cached flushes, but the flush invokes the fetch collaborator zero times
(`missing` is empty), not exactly once. -/
theorem c9_counterexample :
    Reachable ctx0 wA ∧
    windowFlush ctx0 [.jstr "a"] = [.jstr "a"] ∧
    wA.fetchLog = [] ∧
    (populateStart ctx0 wA (windowFlush ctx0 [.jstr "a"])).fetchLog = [] :=
  ⟨reach_wA, by decide, by decide, by decide⟩

/-- Claim C9 (amended): within one debounce window the accumulator maps
each key to the latest query seen for it, so the flushed batch contains at
most one query per distinct key; the flush happens once per window (per
the spec's debouncer contract), and the flush's `populate` invokes the
fetch collaborator at most once — exactly once when some accumulated key
is neither cached nor pending, and not at all otherwise. -/
theorem c9_window_coalescing (ctx : Ctx) (calls : List JVal) (s : CState) :
    (((windowFlush ctx calls).map ctx.queryToKey).Nodup) ∧
    (∀ k, objLookup (windowAccum ctx calls) k
        = calls.reverse.find? (fun c => ctx.queryToKey c = k)) ∧
    ((populateStart ctx s (windowFlush ctx calls)).fetchLog
        = if (getMissing ctx s (windowFlush ctx calls)).isEmpty then s.fetchLog
          else s.fetchLog ++ [getMissing ctx s (windowFlush ctx calls)]) := by
  refine ⟨?_, fun k => ?_, ?_⟩
  · rw [windowFlush, List.map_map]
    have : (windowAccum ctx calls).map (ctx.queryToKey ∘ (fun p => p.2))
        = (windowAccum ctx calls).map Prod.fst :=
      List.map_congr_left (fun p hp => (windowAccum_fst ctx calls p hp).symm)
    rw [this]
    exact windowAccum_keys_nodup ctx calls
  · rw [windowAccum_eq, objLookup_foldl_objSet]
    rw [show (calls.map (fun q => (ctx.queryToKey q, q))).reverse
        = calls.reverse.map (fun q => (ctx.queryToKey q, q)) from by
      rw [List.map_reverse]]
    rw [objLookup_map_pairing]
    cases calls.reverse.find? (fun c => ctx.queryToKey c = k) <;> rfl
  · rw [populateStart]
    by_cases hm : (getMissing ctx s (windowFlush ctx calls)).isEmpty
    · rw [if_pos hm, if_pos hm]
    · rw [if_neg hm, if_neg hm]

/-- Claim C10: a successful merge caches every returned datum — each flat
element under `dataToKey(element)` and each datum of an augmented group
under `dataToKey(datum, meta)` — with no reference to the batch's query
list, so data whose key corresponds to no query is cached exactly as
requested data is; and each batch query key that received no staged entry
still gets the confirmed-absent marker (stated for duplicate-free staged
keys, as required of the key codec). -/
theorem c10_unrequested_data_cached (ctx : Ctx) (s : CState) (i : Nat)
    (hi : i < s.inflight.length) (result : List ResElt)
    (hn : (stagedKeys ctx result).Nodup) :
    (∀ d, ResElt.flat d ∈ result →
        (populateFinishOk ctx s i result).cache (ctx.dataToKey d none)
          = some (appliedEntry (s.cache (ctx.dataToKey d none)) ⟨.complete, d, none⟩)) ∧
    (∀ ds M, ResElt.aug ds M ∈ result → ∀ d ∈ ds,
        (populateFinishOk ctx s i result).cache (ctx.dataToKey d (some M))
          = some (appliedEntry (s.cache (ctx.dataToKey d (some M)))
              ⟨.complete, d, some M⟩)) ∧
    (∀ q ∈ s.inflight.getD i [], ctx.queryToKey q ∉ stagedKeys ctx result →
        ∃ e, (populateFinishOk ctx s i result).cache (ctx.queryToKey q) = some e ∧
          e.status = .complete ∧ e.data = .jnull) := by
  refine ⟨fun d hd => ?_, fun ds M hds d hd => ?_, fun q hq hk => ?_⟩
  · have hmem : (ctx.dataToKey d none, (⟨.complete, d, none⟩ : CacheData))
        ∈ stagedList ctx result := by
      rw [stagedList]
      refine List.mem_flatten.mpr ⟨eltPairs ctx (ResElt.flat d),
        List.mem_map.mpr ⟨ResElt.flat d, hd, rfl⟩, ?_⟩
      rw [eltPairs]
      exact List.mem_singleton.mpr rfl
    rw [populateFinishOk_cache, putDataMerge_lookup_staged ctx _ result _ _ hn hmem]
  · have hmem : (ctx.dataToKey d (some M), (⟨.complete, d, some M⟩ : CacheData))
        ∈ stagedList ctx result := by
      rw [stagedList]
      refine List.mem_flatten.mpr ⟨eltPairs ctx (ResElt.aug ds M),
        List.mem_map.mpr ⟨ResElt.aug ds M, hds, rfl⟩, ?_⟩
      rw [eltPairs]
      exact List.mem_map.mpr ⟨d, hd, rfl⟩
    rw [populateFinishOk_cache, putDataMerge_lookup_staged ctx _ result _ _ hn hmem]
  · refine ⟨appliedEntry (s.cache (ctx.queryToKey q)) nullMarker, ?_,
      appliedEntry_status _ _, appliedEntry_data_jnull _ _ rfl⟩
    rw [populateFinishOk_cache,
      putDataMerge_lookup_unmatched ctx _ result q hq hk]

/-- Witness for C10 at a concrete batch whose fetch returned only
unrequested data, one flat datum and one augmented group. -/
theorem c10_witness :
    (populateFinishOk ctx0 sA 0 [.aug [.jstr "y"] (.jstr "M"), .flat (.jstr "z")]).cache
        (ctx0.dataToKey (.jstr "z") none)
      = some (appliedEntry (sA.cache (ctx0.dataToKey (.jstr "z") none))
          ⟨.complete, .jstr "z", none⟩) ∧
    (populateFinishOk ctx0 sA 0 [.aug [.jstr "y"] (.jstr "M"), .flat (.jstr "z")]).cache
        (ctx0.dataToKey (.jstr "y") (some (.jstr "M")))
      = some (appliedEntry (sA.cache (ctx0.dataToKey (.jstr "y") (some (.jstr "M"))))
          ⟨.complete, .jstr "y", some (.jstr "M")⟩) ∧
    (∃ e, (populateFinishOk ctx0 sA 0 [.aug [.jstr "y"] (.jstr "M"), .flat (.jstr "z")]).cache
          (ctx0.queryToKey (.jstr "a")) = some e ∧
        e.status = .complete ∧ e.data = .jnull) :=
  ⟨(c10_unrequested_data_cached ctx0 sA 0 (by decide)
      [.aug [.jstr "y"] (.jstr "M"), .flat (.jstr "z")] (by decide)).1
        (.jstr "z") (by decide),
    (c10_unrequested_data_cached ctx0 sA 0 (by decide)
      [.aug [.jstr "y"] (.jstr "M"), .flat (.jstr "z")] (by decide)).2.1
        [.jstr "y"] (.jstr "M") (by decide) (.jstr "y") (by decide),
    (c10_unrequested_data_cached ctx0 sA 0 (by decide)
      [.aug [.jstr "y"] (.jstr "M"), .flat (.jstr "z")] (by decide)).2.2
        (.jstr "a") (by decide) (by decide)⟩

end LazyMobX
